import Mathlib

/-!
stringset: a set of strings backed by a map.

Shallow embedding of `string_set.go`.  The Go value `*mapStringSet` is mutated in
place; here every method takes the set and returns its result together with the
set after the call.  The Go map `map[string]uint64` is a finite map with pairwise
distinct keys (`AList`); the `uint64` counter is a natural number reduced modulo
`2 ^ 64` where the source adds to it.  Go leaves the order of `range` over a map
unspecified: the embedding iterates in the order of the key list, and the
theorems below on `removeLoop` hold for every order.
-/

namespace StringSet

/-- The Go type `map[string]uint64`: a finite map from strings to epochs. -/
abbrev Storage := AList (fun _ : String => Nat)

/-- The number of values of the Go type `uint64`. -/
def uint64Size : Nat := 2 ^ 64

/-- The Go struct `mapStringSet`. -/
structure mapStringSet where
  storage : Storage
  nextEpoch : Nat
deriving DecidableEq

/-- `New`: the empty map and the zero value of the counter. -/
def New : mapStringSet :=
  { storage := ∅, nextEpoch := 0 }

/-- `putSingle`: insert `value` with `epoch` when it is no key and return `epoch`;
return the stored epoch, leaving the map alone, when it is a key. -/
def putSingle (s : mapStringSet) (value : String) (epoch : Nat) : Nat × mapStringSet :=
  match s.storage.lookup value with
  | none => (epoch, { s with storage := s.storage.insert value epoch })
  | some vepoch => (vepoch, s)

/-- `containsSingle`: whether `value` is a key of the map. -/
def containsSingle (s : mapStringSet) (value : String) : Bool × mapStringSet :=
  ((s.storage.lookup value).isSome, s)

/-- `removeSingle`: delete `value` and return true when it is a key, return false
otherwise. -/
def removeSingle (s : mapStringSet) (value : String) : Bool × mapStringSet :=
  match s.storage.lookup value with
  | some _ => (true, { s with storage := s.storage.erase value })
  | none => (false, s)

/-- The `for` loop of `Put`, with the loop variable `allnew` and the set as state. -/
def putLoop (epoch : Nat) : List String → Bool → mapStringSet → Bool × mapStringSet
  | [], allnew, s => (allnew, s)
  | value :: rest, allnew, s =>
    let r := putSingle s value epoch
    putLoop epoch rest (if r.1 != epoch then false else allnew) r.2

/-- `Put`: take the epoch, advance the counter (a `uint64` addition), run the loop. -/
def Put (s : mapStringSet) (values : List String) : Bool × mapStringSet :=
  let epoch := s.nextEpoch
  let s1 := { s with nextEpoch := (s.nextEpoch + 1) % uint64Size }
  putLoop epoch values true s1

/-- `NewWith`: `New` followed by one `Put`, whose result is dropped. -/
def NewWith (values : List String) : mapStringSet :=
  (Put New values).2

/-- `Contains`: false at the first value that is no key, true at the end of the list. -/
def Contains : mapStringSet → List String → Bool × mapStringSet
  | s, [] => (true, s)
  | s, value :: rest =>
    let r := containsSingle s value
    if !r.1 then (false, r.2) else Contains r.2 rest

/-- The `for` loop of `Remove` over the keys of the temporary set. -/
def removeLoop : List String → Bool → mapStringSet → Bool × mapStringSet
  | [], allremoved, s => (allremoved, s)
  | value :: rest, allremoved, s =>
    let r := removeSingle s value
    removeLoop rest (if !r.1 then false else allremoved) r.2

/-- `Remove`: build the temporary set `unique` with `NewWith`, then remove each of its
keys. -/
def Remove (s : mapStringSet) (values : List String) : Bool × mapStringSet :=
  let unique := NewWith values
  removeLoop unique.storage.keys true s

/-- `Len`: the number of keys of the map. -/
def Len (s : mapStringSet) : Nat × mapStringSet :=
  (s.storage.keys.length, s)

/-- `Strings`: append every key of the map to an empty slice (whose capacity, from
`Len`, has no effect on the result). -/
def Strings (s : mapStringSet) : List String × mapStringSet :=
  let s1 := (Len s).2
  (s1.storage.keys.foldl (fun ss value => ss ++ [value]) [], s1)

/-- A call of one of the five methods of the interface `StringSet`. -/
inductive Call where
  | put (values : List String)
  | contains (values : List String)
  | remove (values : List String)
  | strings
  | len
deriving DecidableEq

/-- The set after a call, its return value dropped. -/
def Call.exec : Call → mapStringSet → mapStringSet
  | .put values, s => (Put s values).2
  | .contains values, s => (Contains s values).2
  | .remove values, s => (Remove s values).2
  | .strings, s => (Strings s).2
  | .len, s => (Len s).2

/-- The set reached from `start` by a sequence of calls. -/
def runFrom (start : mapStringSet) (calls : List Call) : mapStringSet :=
  calls.foldl (fun s c => c.exec s) start

/-- The set reached from `New` by a sequence of calls. -/
def run (calls : List Call) : mapStringSet :=
  runFrom New calls

/-- The number of `Put` calls in a sequence of calls. -/
def putCalls : List Call → Nat
  | [] => 0
  | .put _ :: rest => putCalls rest + 1
  | _ :: rest => putCalls rest

/-- Membership: `x` is a key of the map of `s`. -/
def member (s : mapStringSet) (x : String) : Prop :=
  x ∈ s.storage

instance (s : mapStringSet) (x : String) : Decidable (member s x) :=
  inferInstanceAs (Decidable (x ∈ s.storage))

/-- The list `dups` of `TestStringSet_Dups` and `TestStringSet_PutReturn`. -/
def testDups : List String :=
  ["what", "shall", "we", "do", "we", "with", "the", "with", "drunken", "sailor", "sailor"]

/-- Every stored epoch is below the counter: the invariant behind the result of `Put`. -/
def EpochsBelow (s : mapStringSet) : Prop :=
  ∀ k a, s.storage.lookup k = some a → a < s.nextEpoch

/-- The words of the specification for the members of a set: `x` was put by some call of
the sequence and removed by no call after that one. -/
def PutNotRemovedSince (calls : List Call) (x : String) : Prop :=
  ∃ pre vs post, calls = pre ++ Call.put vs :: post ∧ x ∈ vs ∧
    ∀ ws, Call.remove ws ∈ post → x ∉ ws

/-- The words of claim C12: the epoch active in the first call of `Put`, of a sequence
of calls run from `s`, that inserts `k`, that is, the counter before the first `Put`
whose list has `k` while `k` is no member. -/
def firstInsertEpochFrom (k : String) : mapStringSet → List Call → Option Nat
  | _, [] => none
  | s, Call.put vs :: rest =>
    if k ∈ vs ∧ ¬ member s k then some s.nextEpoch
    else firstInsertEpochFrom k (Put s vs).2 rest
  | s, c :: rest => firstInsertEpochFrom k (c.exec s) rest

/-- The epoch of the first insertion of `k` in a sequence of calls run from `New`. -/
def firstInsertEpoch (calls : List Call) (k : String) : Option Nat :=
  firstInsertEpochFrom k New calls

/-- `e` is the epoch of the call of `Put` that inserted `k` last in a sequence of calls
run from `start`: the counter before a `Put` whose list has `k`, `k` being no member
before that call and in the list of no `Remove` after it. -/
def LastInsertedAt (start : mapStringSet) (calls : List Call) (k : String) (e : Nat) : Prop :=
  ∃ pre vs post, calls = pre ++ Call.put vs :: post ∧ k ∈ vs ∧
    ¬ member (runFrom start pre) k ∧ e = (runFrom start pre).nextEpoch ∧
    ∀ ws, Call.remove ws ∈ post → k ∉ ws

/-! ## The scenario of `TestStringSet_Readme` -/

theorem readme_scenario :
    (Len (Put New ["the", "less", "I", "know", "the", "better"]).2).1 = 5 ∧
    (Contains (Put New ["the", "less", "I", "know", "the", "better"]).2 ["better"]).1 = true ∧
    (Remove (Put New ["the", "less", "I", "know", "the", "better"]).2 ["the", "less"]).1 = true ∧
    (Len (Remove (Put New ["the", "less", "I", "know", "the", "better"]).2
      ["the", "less"]).2).1 = 3 ∧
    (Strings (Remove (Put New ["the", "less", "I", "know", "the", "better"]).2
      ["the", "less"]).2).1.Perm ["I", "know", "better"] := by
  decide

/-! ## The single-element steps -/

theorem putSingle_fst (s : mapStringSet) (v : String) (e : Nat) :
    (putSingle s v e).1 = (s.storage.lookup v).getD e := by
  unfold putSingle
  cases h : s.storage.lookup v <;> simp

theorem putSingle_nextEpoch (s : mapStringSet) (v : String) (e : Nat) :
    (putSingle s v e).2.nextEpoch = s.nextEpoch := by
  unfold putSingle
  cases h : s.storage.lookup v <;> simp

theorem putSingle_lookup (s : mapStringSet) (v : String) (e : Nat) (k : String) :
    (putSingle s v e).2.storage.lookup k
      = (s.storage.lookup k).or (if k = v then some e else none) := by
  unfold putSingle
  cases h : s.storage.lookup v with
  | none =>
    by_cases hk : k = v
    · subst hk; simp [h]
    · simp [hk, AList.lookup_insert_ne hk]
  | some a =>
    by_cases hk : k = v
    · subst hk; simp [h]
    · simp [hk]

theorem removeSingle_fst (s : mapStringSet) (v : String) :
    (removeSingle s v).1 = decide (v ∈ s.storage) := by
  unfold removeSingle
  cases h : s.storage.lookup v with
  | none => simpa using AList.lookup_eq_none.mp h
  | some a =>
    have : v ∈ s.storage := AList.lookup_isSome.mp (by simp [h])
    simp [this]

theorem removeSingle_snd (s : mapStringSet) (v : String) :
    (removeSingle s v).2 = { s with storage := s.storage.erase v } := by
  unfold removeSingle
  cases h : s.storage.lookup v with
  | none =>
    have hv : v ∉ s.storage := AList.lookup_eq_none.mp h
    have : s.storage.erase v = s.storage := by
      apply AList.ext
      simp only [AList.erase]
      exact List.kerase_of_not_mem_keys hv
    simp [this]
  | some a => rfl


/-! ## The loops -/

theorem putLoop_nextEpoch (e : Nat) (vs : List String) (b : Bool) (s : mapStringSet) :
    (putLoop e vs b s).2.nextEpoch = s.nextEpoch := by
  induction vs generalizing b s with
  | nil => rfl
  | cons v rest ih => simp only [putLoop]; rw [ih, putSingle_nextEpoch]

theorem putLoop_lookup (e : Nat) (vs : List String) (b : Bool) (s : mapStringSet) (k : String) :
    (putLoop e vs b s).2.storage.lookup k
      = (s.storage.lookup k).or (if k ∈ vs then some e else none) := by
  induction vs generalizing b s with
  | nil => simp [putLoop]
  | cons v rest ih =>
    simp only [putLoop]
    rw [ih, putSingle_lookup]
    cases s.storage.lookup k with
    | some a => simp
    | none =>
      by_cases h1 : k = v <;> by_cases h2 : k ∈ rest <;> simp [h1, h2]

theorem putLoop_mem (e : Nat) (vs : List String) (b : Bool) (s : mapStringSet) (k : String) :
    k ∈ (putLoop e vs b s).2.storage ↔ k ∈ s.storage ∨ k ∈ vs := by
  rw [← AList.lookup_isSome, putLoop_lookup, ← AList.lookup_isSome]
  cases s.storage.lookup k with
  | some a => simp
  | none => by_cases h : k ∈ vs <;> simp [h]

theorem putLoop_fst (e : Nat) (vs : List String) (b : Bool) (s : mapStringSet) :
    (putLoop e vs b s).1 = true
      ↔ b = true ∧ ∀ v ∈ vs, ∀ a, s.storage.lookup v = some a → a = e := by
  induction vs generalizing b s with
  | nil => simp [putLoop]
  | cons v rest ih =>
    simp only [putLoop]
    rw [ih, putSingle_fst]
    constructor
    · rintro ⟨h1, h2⟩
      have hv : (s.storage.lookup v).getD e = e ∧ b = true := by
        by_cases hc : (s.storage.lookup v).getD e = e
        · simpa [hc] using h1
        · simp [hc] at h1
      refine ⟨hv.2, ?_⟩
      intro w hw a ha
      rcases List.mem_cons.mp hw with rfl | hw
      · have := hv.1; rw [ha] at this; simpa using this
      · have := h2 w hw a; rw [putSingle_lookup, ha] at this; simpa using this
    · rintro ⟨h1, h2⟩
      have hv : (s.storage.lookup v).getD e = e := by
        cases hl : s.storage.lookup v with
        | none => rfl
        | some a => simpa using h2 v (List.mem_cons_self _ _) a hl
      refine ⟨by simp [hv, h1], ?_⟩
      intro w hw a ha
      rw [putSingle_lookup] at ha
      cases hl : s.storage.lookup w with
      | some a2 =>
        rw [hl] at ha
        have : a2 = a := by simpa using ha
        subst this
        exact h2 w (List.mem_cons_of_mem _ hw) a2 hl
      | none =>
        rw [hl] at ha
        by_cases hwv : w = v
        · simp [hwv] at ha; exact ha.symm
        · simp [hwv] at ha

theorem removeLoop_nextEpoch (ks : List String) (b : Bool) (s : mapStringSet) :
    (removeLoop ks b s).2.nextEpoch = s.nextEpoch := by
  induction ks generalizing b s with
  | nil => rfl
  | cons v rest ih => simp only [removeLoop]; rw [ih, removeSingle_snd]

theorem removeLoop_lookup (ks : List String) (b : Bool) (s : mapStringSet) (k : String) :
    (removeLoop ks b s).2.storage.lookup k
      = if k ∈ ks then none else s.storage.lookup k := by
  induction ks generalizing b s with
  | nil => simp [removeLoop]
  | cons v rest ih =>
    simp only [removeLoop]
    rw [ih, removeSingle_snd]
    by_cases h1 : k = v
    · subst h1; simp [AList.lookup_erase]
    · by_cases h2 : k ∈ rest <;> simp [h1, h2, AList.lookup_erase_ne h1]

theorem removeLoop_mem (ks : List String) (b : Bool) (s : mapStringSet) (k : String) :
    k ∈ (removeLoop ks b s).2.storage ↔ k ∈ s.storage ∧ k ∉ ks := by
  rw [← AList.lookup_isSome, removeLoop_lookup, ← AList.lookup_isSome]
  by_cases h : k ∈ ks <;> simp [h]

theorem removeLoop_fst (ks : List String) (hks : ks.Nodup) (b : Bool) (s : mapStringSet) :
    (removeLoop ks b s).1 = true ↔ b = true ∧ ∀ k ∈ ks, k ∈ s.storage := by
  induction ks generalizing b s with
  | nil => simp [removeLoop]
  | cons v rest ih =>
    have hnd := List.nodup_cons.mp hks
    simp only [removeLoop]
    rw [ih hnd.2, removeSingle_fst, removeSingle_snd]
    simp only [AList.mem_erase, List.mem_cons, forall_eq_or_imp]
    by_cases hv : v ∈ s.storage
    · simp only [hv, decide_True, Bool.not_true, Bool.false_eq_true, if_false, true_and]
      constructor
      · rintro ⟨h1, h2⟩; exact ⟨h1, fun k hk => (h2 k hk).2⟩
      · rintro ⟨h1, h2⟩
        exact ⟨h1, fun k hk => ⟨fun hkv => hnd.1 (hkv ▸ hk), h2 k hk⟩⟩
    · simp [hv]


/-! ## The methods -/

theorem Put_nextEpoch (s : mapStringSet) (vs : List String) :
    (Put s vs).2.nextEpoch = (s.nextEpoch + 1) % uint64Size := by
  simp only [Put]; rw [putLoop_nextEpoch]

theorem Put_lookup (s : mapStringSet) (vs : List String) (k : String) :
    (Put s vs).2.storage.lookup k
      = (s.storage.lookup k).or (if k ∈ vs then some s.nextEpoch else none) := by
  simp only [Put]; rw [putLoop_lookup]

theorem Put_mem (s : mapStringSet) (vs : List String) (k : String) :
    k ∈ (Put s vs).2.storage ↔ k ∈ s.storage ∨ k ∈ vs := by
  simp only [Put]; rw [putLoop_mem]

theorem Put_fst (s : mapStringSet) (vs : List String) :
    (Put s vs).1 = true ↔ ∀ v ∈ vs, ∀ a, s.storage.lookup v = some a → a = s.nextEpoch := by
  simp only [Put]; rw [putLoop_fst]; simp

theorem NewWith_mem (vs : List String) (k : String) :
    k ∈ (NewWith vs).storage ↔ k ∈ vs := by
  simp only [NewWith]; rw [Put_mem]; simp [New]

theorem Remove_nextEpoch (s : mapStringSet) (vs : List String) :
    (Remove s vs).2.nextEpoch = s.nextEpoch := by
  simp only [Remove]; rw [removeLoop_nextEpoch]

theorem Remove_lookup (s : mapStringSet) (vs : List String) (k : String) :
    (Remove s vs).2.storage.lookup k = if k ∈ vs then none else s.storage.lookup k := by
  simp only [Remove]; rw [removeLoop_lookup]
  simp only [← AList.mem_keys, NewWith_mem]

theorem Remove_mem (s : mapStringSet) (vs : List String) (k : String) :
    k ∈ (Remove s vs).2.storage ↔ k ∈ s.storage ∧ k ∉ vs := by
  simp only [Remove]; rw [removeLoop_mem]
  simp only [← AList.mem_keys, NewWith_mem]

theorem Remove_fst (s : mapStringSet) (vs : List String) :
    (Remove s vs).1 = true ↔ ∀ v ∈ vs, v ∈ s.storage := by
  simp only [Remove]; rw [removeLoop_fst _ (AList.keys_nodup _)]
  simp only [← AList.mem_keys, NewWith_mem, true_and]

theorem Contains_snd (s : mapStringSet) (vs : List String) : (Contains s vs).2 = s := by
  induction vs with
  | nil => rfl
  | cons v rest ih =>
    simp only [Contains, containsSingle]
    split
    · rfl
    · exact ih

theorem Contains_fst (s : mapStringSet) (vs : List String) :
    (Contains s vs).1 = true ↔ ∀ v ∈ vs, v ∈ s.storage := by
  induction vs with
  | nil => simp [Contains]
  | cons v rest ih =>
    simp only [Contains, containsSingle, List.mem_cons, forall_eq_or_imp]
    by_cases hv : v ∈ s.storage
    · have : (s.storage.lookup v).isSome = true := AList.lookup_isSome.mpr hv
      simp [this, hv, ih]
    · have : (s.storage.lookup v).isSome = false := by
        simpa using AList.lookup_eq_none.mpr hv
      simp [this, hv]

theorem Strings_fst (s : mapStringSet) : (Strings s).1 = s.storage.keys := by
  have key : ∀ (l acc : List String),
      l.foldl (fun ss value => ss ++ [value]) acc = acc ++ l := by
    intro l
    induction l with
    | nil => simp
    | cons a l ih => intro acc; simp [ih]
  simp [Strings, Len, key]

/-! ## Counting keys -/

theorem keys_length_congr (a b : Storage) (h : ∀ k, k ∈ a ↔ k ∈ b) :
    a.keys.length = b.keys.length := by
  apply List.Perm.length_eq
  rw [List.perm_ext_iff_of_nodup a.keys_nodup b.keys_nodup]
  intro k
  simpa [AList.mem_keys] using h k

theorem keys_length_union (a b : Storage) (vs : List String)
    (h : ∀ k, k ∈ b ↔ k ∈ a ∨ k ∈ vs) :
    b.keys.length = a.keys.length + (vs.dedup.filter (fun v => decide (v ∉ a))).length := by
  have hnd : (a.keys ++ vs.dedup.filter (fun v => decide (v ∉ a))).Nodup := by
    rw [List.nodup_append]
    refine ⟨a.keys_nodup, (List.nodup_dedup vs).filter _, ?_⟩
    intro x hx hx2
    simp only [List.mem_filter, decide_eq_true_eq] at hx2
    exact hx2.2 (AList.mem_keys.mpr hx)
  rw [← List.length_append]
  apply List.Perm.length_eq
  rw [List.perm_ext_iff_of_nodup b.keys_nodup hnd]
  intro k
  simp only [← AList.mem_keys, h k, List.mem_append, List.mem_filter, List.mem_dedup,
    decide_eq_true_eq]
  tauto

theorem keys_length_diff (a b : Storage) (vs : List String)
    (h : ∀ k, k ∈ b ↔ k ∈ a ∧ k ∉ vs) :
    b.keys.length + (vs.dedup.filter (fun v => decide (v ∈ a))).length = a.keys.length := by
  have hnd : (b.keys ++ vs.dedup.filter (fun v => decide (v ∈ a))).Nodup := by
    rw [List.nodup_append]
    refine ⟨b.keys_nodup, (List.nodup_dedup vs).filter _, ?_⟩
    intro x hx hx2
    simp only [List.mem_filter, List.mem_dedup] at hx2
    exact ((h x).mp (AList.mem_keys.mpr hx)).2 hx2.1
  rw [← List.length_append]
  apply List.Perm.length_eq
  rw [List.perm_ext_iff_of_nodup hnd a.keys_nodup]
  intro k
  simp only [← AList.mem_keys, h k, List.mem_append, List.mem_filter, List.mem_dedup,
    decide_eq_true_eq]
  tauto


/-! ## Sequences of calls -/

theorem runFrom_append (s : mapStringSet) (cs ds : List Call) :
    runFrom s (cs ++ ds) = runFrom (runFrom s cs) ds := by
  simp [runFrom, List.foldl_append]

theorem run_snoc (cs : List Call) (c : Call) : run (cs ++ [c]) = c.exec (run cs) := by
  simp [run, runFrom, List.foldl_append]

theorem putCalls_append (cs ds : List Call) :
    putCalls (cs ++ ds) = putCalls cs + putCalls ds := by
  induction cs with
  | nil => simp [putCalls]
  | cons c cs ih =>
    cases c <;> simp [putCalls, ih]
    omega

theorem exec_nextEpoch_of_not_put (c : Call) (s : mapStringSet) (h : putCalls [c] = 0) :
    (c.exec s).nextEpoch = s.nextEpoch := by
  cases c with
  | put vs => simp [putCalls] at h
  | contains vs => simp [Call.exec, Contains_snd]
  | remove vs => simp [Call.exec, Remove_nextEpoch]
  | strings => rfl
  | len => rfl

theorem exec_lookup_of_not_put (c : Call) (s : mapStringSet) (h : putCalls [c] = 0)
    (k : String) (a : Nat) (hk : (c.exec s).storage.lookup k = some a) :
    s.storage.lookup k = some a := by
  cases c with
  | put vs => simp [putCalls] at h
  | contains vs => simpa [Call.exec, Contains_snd] using hk
  | remove vs =>
    simp only [Call.exec, Remove_lookup] at hk
    by_cases hv : k ∈ vs
    · simp [hv] at hk
    · simpa [hv] using hk
  | strings => exact hk
  | len => exact hk

theorem run_invariant (cs : List Call) (h : putCalls cs < uint64Size) :
    (run cs).nextEpoch = putCalls cs ∧ EpochsBelow (run cs) := by
  induction cs using List.reverseRecOn with
  | nil => exact ⟨rfl, fun k a hk => by simp [run, runFrom, New] at hk⟩
  | append_singleton cs c ih =>
    rw [run_snoc]
    rw [putCalls_append] at h ⊢
    have ih := ih (by omega)
    by_cases hc : putCalls [c] = 0
    · refine ⟨by rw [exec_nextEpoch_of_not_put c _ hc, ih.1, hc]; rfl, ?_⟩
      intro k a hk
      rw [exec_nextEpoch_of_not_put c _ hc]
      exact ih.2 k a (exec_lookup_of_not_put c _ hc k a hk)
    · cases c with
      | put vs =>
        have h1 : putCalls [Call.put vs] = 1 := rfl
        rw [h1] at h ⊢
        have hne : (Call.exec (Call.put vs) (run cs)).nextEpoch = putCalls cs + 1 := by
          simp only [Call.exec, Put_nextEpoch, ih.1]
          exact Nat.mod_eq_of_lt h
        refine ⟨hne, ?_⟩
        intro k a hk
        rw [hne]
        simp only [Call.exec, Put_lookup] at hk
        cases hl : (run cs).storage.lookup k with
        | some a2 =>
          rw [hl] at hk
          have : a2 = a := by simpa using hk
          have := ih.2 k a2 hl
          omega
        | none =>
          rw [hl] at hk
          by_cases hv : k ∈ vs
          · simp [hv] at hk; omega
          · simp [hv] at hk
      | contains vs => exact absurd rfl hc
      | remove vs => exact absurd rfl hc
      | strings => exact absurd rfl hc
      | len => exact absurd rfl hc

theorem Put_fst_of_epochsBelow (s : mapStringSet) (hs : EpochsBelow s) (vs : List String) :
    (Put s vs).1 = true ↔ ∀ v ∈ vs, v ∉ s.storage := by
  rw [Put_fst]
  constructor
  · intro h v hv hmem
    obtain ⟨a, ha⟩ := Option.isSome_iff_exists.mp (AList.lookup_isSome.mpr hmem)
    have h1 := h v hv a ha
    have h2 := hs v a ha
    omega
  · intro h v hv a ha
    exact absurd (AList.lookup_isSome.mp (by simp [ha])) (h v hv)

theorem Put_fst_of_not_mem (s : mapStringSet) (vs : List String)
    (h : ∀ v ∈ vs, v ∉ s.storage) : (Put s vs).1 = true := by
  rw [Put_fst]
  intro v hv a ha
  exact absurd (AList.lookup_isSome.mp (by simp [ha])) (h v hv)

theorem runFrom_puts_mem (vs : List String) (s : mapStringSet) (k : String) :
    k ∈ (runFrom s (vs.map fun v => Call.put [v])).storage ↔ k ∈ s.storage ∨ k ∈ vs := by
  induction vs generalizing s with
  | nil => simp [runFrom]
  | cons v rest ih =>
    have : runFrom s ((v :: rest).map fun v => Call.put [v])
        = runFrom (Put s [v]).2 (rest.map fun v => Call.put [v]) := rfl
    rw [this, ih, Put_mem]
    simp only [List.mem_singleton, List.mem_cons]
    tauto

theorem putCalls_replicate (k : Nat) (vs : List String) :
    putCalls (List.replicate k (Call.put vs)) = k := by
  induction k with
  | zero => rfl
  | succ k ih => simp [List.replicate_succ, putCalls, ih]

theorem runFrom_replicate_put_nil (k : Nat) (s : mapStringSet) (hs : s.nextEpoch < uint64Size) :
    runFrom s (List.replicate k (Call.put []))
      = { s with nextEpoch := (s.nextEpoch + k) % uint64Size } := by
  induction k generalizing s with
  | zero => simp [runFrom, Nat.mod_eq_of_lt hs]
  | succ k ih =>
    have hstep : runFrom s (List.replicate (k + 1) (Call.put []))
        = runFrom (Put s []).2 (List.replicate k (Call.put [])) := rfl
    have hput : (Put s []).2 = { s with nextEpoch := (s.nextEpoch + 1) % uint64Size } := rfl
    rw [hstep, hput, ih _ (Nat.mod_lt _ (by decide))]
    simp only [Nat.mod_add_mod]
    congr 2
    omega


/-! ## The result of `Put` -/

/-- C1, as the source has it: on a fresh set `Put(x, x)` returns true, so the result of
`Put` is not "no repeat in the list and no string of it a member before". -/
theorem put_repeated_value_counterexample :
    (Put (run []) ["x", "x"]).1 = true ∧
    ¬ ((Put (run []) ["x", "x"]).1 = true ↔
        (["x", "x"].Nodup ∧ ∀ v ∈ ["x", "x"], ¬ member (run []) v)) := by
  decide

/-- C1, amended: on a set reached from `New` by fewer than `2 ^ 64` calls of `Put` (and
any other calls), `Put(vs)` returns true exactly when no string of `vs` was a member
before the call, a repeat inside `vs` playing no part; on a fresh set both `Put(x, x)`
and `Put(x)` return true. -/
theorem put_result_ignores_repeats (calls : List Call) (vs : List String)
    (h : putCalls calls < uint64Size) :
    ((Put (run calls) vs).1 = true ↔ ∀ v ∈ vs, ¬ member (run calls) v) ∧
    (∀ x : String, (Put New [x, x]).1 = true ∧ (Put New [x]).1 = true) := by
  refine ⟨Put_fst_of_epochsBelow _ (run_invariant calls h).2 vs, fun x => ⟨?_, ?_⟩⟩
  · exact Put_fst_of_not_mem _ _ (fun v _ => AList.not_mem_empty v)
  · exact Put_fst_of_not_mem _ _ (fun v _ => AList.not_mem_empty v)

theorem put_result_ignores_repeats_witness :
    putCalls [Call.put ["a", "b"], Call.remove ["a"]] < uint64Size ∧
    (((Put (run [Call.put ["a", "b"], Call.remove ["a"]]) ["a", "c", "a"]).1 = true ↔
        ∀ v ∈ ["a", "c", "a"], ¬ member (run [Call.put ["a", "b"], Call.remove ["a"]]) v) ∧
      (∀ x : String, (Put New [x, x]).1 = true ∧ (Put New [x]).1 = true)) :=
  ⟨by decide, put_result_ignores_repeats _ _ (by decide)⟩

/-- C2: on a set reached from `New` by fewer than `2 ^ 64` calls of `Put` (and any other
calls), `Put(vs)` returns true if and only if no string of `vs` was a member before the
call; on a fresh set `Put(vs)` returns true for every `vs`, the list `dups` of the tests
included. -/
theorem put_returns_true_iff_none_member (calls : List Call) (vs : List String)
    (h : putCalls calls < uint64Size) :
    ((Put (run calls) vs).1 = true ↔ ∀ v ∈ vs, ¬ member (run calls) v) ∧
    (∀ ws : List String, (Put New ws).1 = true) ∧
    (Put New testDups).1 = true := by
  have hnew : ∀ ws : List String, (Put New ws).1 = true :=
    fun ws => Put_fst_of_not_mem _ _ (fun v _ => AList.not_mem_empty v)
  exact ⟨Put_fst_of_epochsBelow _ (run_invariant calls h).2 vs, hnew, hnew _⟩

theorem put_returns_true_iff_none_member_witness :
    putCalls [Call.put ["what", "shall"], Call.remove ["what"], Call.put []] < uint64Size ∧
    (((Put (run [Call.put ["what", "shall"], Call.remove ["what"], Call.put []])
          ["what", "we", "what"]).1 = true ↔
        ∀ v ∈ ["what", "we", "what"],
          ¬ member (run [Call.put ["what", "shall"], Call.remove ["what"], Call.put []]) v) ∧
      (∀ ws : List String, (Put New ws).1 = true) ∧
      (Put New testDups).1 = true) :=
  ⟨by decide, put_returns_true_iff_none_member _ _ (by decide)⟩

/-! ## `Remove` -/

/-- C3: `Remove(vs)` returns true if and only if every string of `vs` was a member before
the call; `Remove(x, x)` of a member `x` returns true, and `Remove()` returns true. -/
theorem remove_returns_true_iff_all_members (s : mapStringSet) (vs : List String) :
    ((Remove s vs).1 = true ↔ ∀ v ∈ vs, member s v) ∧
    (∀ x : String, member s x → (Remove s [x, x]).1 = true) ∧
    (Remove s []).1 = true := by
  refine ⟨Remove_fst s vs, fun x hx => ?_, ?_⟩
  · rw [Remove_fst]
    intro v hv
    simp only [List.mem_cons, List.mem_singleton, List.not_mem_nil, or_false, or_self] at hv
    exact hv ▸ hx
  · rw [Remove_fst]
    intro v hv
    cases hv

/-- C4: after `Remove(vs)` a string is a member if and only if it was one before and does
not occur in `vs`, whatever the call returns; `Len` drops by the number of distinct
strings of `vs` that were members; `Remove(v)` of an absent `v` returns false and leaves
the set as it was. -/
theorem remove_effect (s : mapStringSet) (vs : List String) :
    (∀ x : String, member (Remove s vs).2 x ↔ member s x ∧ x ∉ vs) ∧
    (Len (Remove s vs).2).1 + (vs.dedup.filter (fun v => decide (member s v))).length
      = (Len s).1 ∧
    (Len (Remove s vs).2).1
      = (Len s).1 - (vs.dedup.filter (fun v => decide (member s v))).length ∧
    (∀ x ∈ vs, ¬ member (Remove s vs).2 x) ∧
    (∀ v : String, ¬ member s v → (Remove s [v]).1 = false ∧ (Remove s [v]).2 = s) := by
  have hlen := keys_length_diff s.storage (Remove s vs).2.storage vs (Remove_mem s vs)
  refine ⟨Remove_mem s vs, hlen, ?_, fun x hx hm => ((Remove_mem s vs x).mp hm).2 hx,
    fun v hv => ⟨?_, ?_⟩⟩
  · simp only [Len, member] at hlen ⊢
    omega
  · rw [← Bool.not_eq_true, Remove_fst]
    intro h
    exact hv (h v (List.mem_singleton_self v))
  · have hk : (NewWith [v]).storage.keys = [v] := rfl
    simp only [Remove, hk, removeLoop]
    rw [removeSingle_snd]
    have : s.storage.erase v = s.storage := by
      apply AList.ext
      simp only [AList.erase]
      exact List.kerase_of_not_mem_keys hv
    rw [this]

/-! ## The effect of `Put` -/

/-- C5: after `Put(vs)` a string is a member if and only if it was one before or occurs
in `vs`; `Contains(vs)` is then true, and `Len` has grown by the number of distinct
strings of `vs` that were not members before. -/
theorem put_effect (s : mapStringSet) (vs : List String) :
    (∀ x : String, member (Put s vs).2 x ↔ member s x ∨ x ∈ vs) ∧
    (Contains (Put s vs).2 vs).1 = true ∧
    (Len (Put s vs).2).1
      = (Len s).1 + (vs.dedup.filter (fun v => decide (¬ member s v))).length := by
  refine ⟨Put_mem s vs, ?_, keys_length_union s.storage (Put s vs).2.storage vs (Put_mem s vs)⟩
  rw [Contains_fst]
  intro v hv
  exact (Put_mem s vs v).mpr (Or.inr hv)


/-! ## `Contains`, `NewWith`, `Strings` -/

/-- C6: `Contains(vs)` returns true if and only if every element of `vs` is a key of the
map; so it is true of the empty list and a repeat in `vs` does not change it; the call
leaves the map and the counter as they were. -/
theorem contains_spec (s : mapStringSet) (vs : List String) :
    ((Contains s vs).1 = true ↔ ∀ v ∈ vs, v ∈ s.storage.keys) ∧
    (Contains s []).1 = true ∧
    (Contains s vs.dedup).1 = (Contains s vs).1 ∧
    (Contains s vs).2.storage = s.storage ∧
    (Contains s vs).2.nextEpoch = s.nextEpoch := by
  refine ⟨?_, rfl, ?_, by rw [Contains_snd], by rw [Contains_snd]⟩
  · rw [Contains_fst]
    simp only [AList.mem_keys]
  · rw [Bool.eq_iff_iff, Contains_fst, Contains_fst]
    simp only [List.mem_dedup]

/-- C7: for every list `A`, with or without repeats, `NewWith(A).Len()` is the number of
distinct strings of `A`, `NewWith(A).Contains(A)` is true and `NewWith(A).Contains(n)` is
false for every `n` not in `A`; the list `dups` of the tests, of 11 elements, gives 8. -/
theorem newWith_spec (A : List String) :
    (Len (NewWith A)).1 = A.dedup.length ∧
    (Contains (NewWith A) A).1 = true ∧
    (∀ n : String, n ∉ A → (Contains (NewWith A) [n]).1 = false) ∧
    (testDups.length = 11 ∧ (Len (NewWith testDups)).1 = 8) := by
  refine ⟨?_, ?_, fun n hn => ?_, by decide⟩
  · have h := keys_length_union New.storage (NewWith A).storage A
      (fun k => by rw [NewWith_mem]; simp [New])
    have hf : A.dedup.filter (fun v => decide (v ∉ New.storage)) = A.dedup :=
      List.filter_eq_self.mpr (fun v _ => by simp [New])
    rw [hf] at h
    simpa [Len, New] using h
  · rw [Contains_fst]
    exact fun v hv => (NewWith_mem A v).mpr hv
  · rw [← Bool.not_eq_true, Contains_fst]
    intro h
    exact hn ((NewWith_mem A n).mp (h n (List.mem_singleton_self n)))

theorem putNotRemovedSince_cons (c : Call) (rest : List Call) (x : String) :
    PutNotRemovedSince (c :: rest) x ↔
      ((∃ vs, c = Call.put vs ∧ x ∈ vs) ∧ ∀ ws, Call.remove ws ∈ rest → x ∉ ws)
        ∨ PutNotRemovedSince rest x := by
  constructor
  · rintro ⟨pre, vs, post, h, hx, hnr⟩
    cases pre with
    | nil =>
      simp only [List.nil_append, List.cons.injEq] at h
      obtain ⟨rfl, rfl⟩ := h
      exact Or.inl ⟨⟨vs, rfl, hx⟩, hnr⟩
    | cons p pre =>
      simp only [List.cons_append, List.cons.injEq] at h
      obtain ⟨rfl, rfl⟩ := h
      exact Or.inr ⟨pre, vs, post, rfl, hx, hnr⟩
  · rintro (⟨⟨vs, rfl, hx⟩, hnr⟩ | ⟨pre, vs, post, rfl, hx, hnr⟩)
    · exact ⟨[], vs, rest, rfl, hx, hnr⟩
    · exact ⟨c :: pre, vs, post, rfl, hx, hnr⟩

theorem runFrom_mem_iff (calls : List Call) (s : mapStringSet) (x : String) :
    x ∈ (runFrom s calls).storage ↔
      (x ∈ s.storage ∧ ∀ ws, Call.remove ws ∈ calls → x ∉ ws)
        ∨ PutNotRemovedSince calls x := by
  induction calls generalizing s with
  | nil =>
    have : ¬ PutNotRemovedSince [] x := by
      rintro ⟨pre, vs, post, h, -⟩
      cases pre <;> simp at h
    simp [runFrom, this]
  | cons c rest ih =>
    have hstep : runFrom s (c :: rest) = runFrom (c.exec s) rest := rfl
    rw [hstep, ih, putNotRemovedSince_cons]
    cases c with
    | put vs =>
      simp only [Call.exec, Put_mem, List.mem_cons, Call.put.injEq, exists_eq_left', false_or,
        reduceCtorEq]
      tauto
    | remove vs =>
      simp only [Call.exec, Remove_mem, List.mem_cons, Call.remove.injEq, reduceCtorEq,
        false_and, exists_false, false_or, forall_eq_or_imp]
      tauto
    | contains vs =>
      simp [Call.exec, Contains_snd]
    | strings => simp [Call.exec, Strings, Len]
    | len => simp [Call.exec, Len]

/-- C8: on a set reached from `New` by any sequence of calls, `Strings()` is a list
without repeats, of length `Len()`, whose elements are the members of the set, which are
the strings put by some call and removed by no later one; `Strings()` leaves the set as
it was. -/
theorem strings_spec (calls : List Call) :
    (Strings (run calls)).1.Nodup ∧
    (Strings (run calls)).1.length = (Len (run calls)).1 ∧
    (∀ x : String, x ∈ (Strings (run calls)).1 ↔ member (run calls) x) ∧
    (∀ x : String, x ∈ (Strings (run calls)).1 ↔ PutNotRemovedSince calls x) ∧
    (Strings (run calls)).2 = run calls := by
  refine ⟨?_, ?_, fun x => ?_, fun x => ?_, rfl⟩
  · rw [Strings_fst]; exact AList.keys_nodup _
  · rw [Strings_fst]; rfl
  · rw [Strings_fst]; exact AList.mem_keys.symm
  · rw [Strings_fst, ← AList.mem_keys, run, runFrom_mem_iff]
    simp [New]


/-! ## `Put` twice, and the three constructions -/

theorem run_cons (c : Call) (cs : List Call) : run (c :: cs) = runFrom (c.exec New) cs :=
  rfl

theorem putCalls_put_cons (vs : List String) (cs : List Call) :
    putCalls (Call.put vs :: cs) = putCalls cs + 1 :=
  rfl

/-- C9, as the source has it: after `Put("x")` and `2 ^ 64 - 2` calls `Put()`, fewer than
`2 ^ 64` calls of `Put` in all, the counter stands at `2 ^ 64 - 1`; the next `Put("x")`
wraps it to 0, the epoch stored for "x", and the `Put("x")` after that returns true. -/
theorem put_twice_counterexample :
    putCalls (Call.put ["x"] :: List.replicate (uint64Size - 2) (Call.put [])) < uint64Size ∧
    ["x"] ≠ [] ∧
    (Put (Put (run (Call.put ["x"] :: List.replicate (uint64Size - 2) (Call.put [])))
      ["x"]).2 ["x"]).1 = true := by
  refine ⟨?_, by decide, ?_⟩
  · rw [putCalls_put_cons, putCalls_replicate]
    decide
  · have h1 : (Call.exec (Call.put ["x"]) New).nextEpoch < uint64Size := by decide
    have h2 : ((Call.exec (Call.put ["x"]) New).nextEpoch + (uint64Size - 2)) % uint64Size
        = 18446744073709551615 := by decide
    rw [run_cons, runFrom_replicate_put_nil _ _ h1, h2]
    decide

/-- C9, amended: for every set and every list `vs`, whatever the state of the counter, the
members, the stored epochs and `Len` after the second of two calls `Put(vs)` are those
after the first. On a set reached from `New` by fewer than `2 ^ 64 - 1` calls of `Put`,
the second of two calls `Put(vs)` of a non-empty `vs` returns false, and `Put(a)` returns
false for every `a` of a list just put. -/
theorem put_twice (calls : List Call) (vs : List String) :
    (∀ (s : mapStringSet) (ws : List String),
      (∀ x : String, member (Put (Put s ws).2 ws).2 x ↔ member (Put s ws).2 x) ∧
      (∀ k : String,
        (Put (Put s ws).2 ws).2.storage.lookup k = (Put s ws).2.storage.lookup k) ∧
      (Len (Put (Put s ws).2 ws).2).1 = (Len (Put s ws).2).1) ∧
    (∀ x : String,
      member (Put (Put (run calls) vs).2 vs).2 x ↔ member (Put (run calls) vs).2 x) ∧
    (Len (Put (Put (run calls) vs).2 vs).2).1 = (Len (Put (run calls) vs).2).1 ∧
    (putCalls calls + 1 < uint64Size →
      (vs ≠ [] → (Put (Put (run calls) vs).2 vs).1 = false) ∧
      (∀ a ∈ vs, (Put (Put (run calls) vs).2 [a]).1 = false)) := by
  have hmem : ∀ (s : mapStringSet) (ws : List String) (x : String),
      x ∈ (Put (Put s ws).2 ws).2.storage ↔ x ∈ (Put s ws).2.storage := by
    intro s ws x
    rw [Put_mem, Put_mem]
    tauto
  refine ⟨fun s ws => ⟨hmem s ws, fun k => ?_, keys_length_congr _ _ (hmem s ws)⟩,
    hmem _ vs, keys_length_congr _ _ (hmem _ vs), fun h => ?_⟩
  · rw [Put_lookup (Put s ws).2 ws k]
    by_cases hk : k ∈ ws
    · have hin : k ∈ (Put s ws).2.storage := (Put_mem s ws k).mpr (Or.inr hk)
      obtain ⟨a, ha⟩ := Option.isSome_iff_exists.mp (AList.lookup_isSome.mpr hin)
      rw [ha]
      rfl
    · simp [hk]
  · have hrun : (Put (run calls) vs).2 = run (calls ++ [Call.put vs]) :=
      (run_snoc calls (Call.put vs)).symm
    have hinv : EpochsBelow (Put (run calls) vs).2 := by
      rw [hrun]
      refine (run_invariant _ ?_).2
      rw [putCalls_append]
      exact h
    refine ⟨fun hne => ?_, fun a ha => ?_⟩
    · rw [← Bool.not_eq_true, Put_fst_of_epochsBelow _ hinv]
      intro hall
      obtain ⟨v, hv⟩ := List.exists_mem_of_ne_nil vs hne
      exact hall v hv ((Put_mem _ _ v).mpr (Or.inr hv))
    · rw [← Bool.not_eq_true, Put_fst_of_epochsBelow _ hinv]
      intro hall
      exact hall a (List.mem_singleton_self a) ((Put_mem _ _ a).mpr (Or.inr ha))

theorem put_twice_witness :
    putCalls [Call.put ["a"], Call.remove ["a"]] + 1 < uint64Size ∧ ["a", "b", "a"] ≠ [] ∧
    ((Put (Put (run [Call.put ["a"], Call.remove ["a"]]) ["a", "b", "a"]).2 ["a", "b", "a"]).1
        = false ∧
      (∀ x : String,
        member (Put (Put (run [Call.put ["a"], Call.remove ["a"]]) ["a", "b", "a"]).2
            ["a", "b", "a"]).2 x ↔
          member (Put (run [Call.put ["a"], Call.remove ["a"]]) ["a", "b", "a"]).2 x) ∧
      (Len (Put (Put (run [Call.put ["a"], Call.remove ["a"]]) ["a", "b", "a"]).2
          ["a", "b", "a"]).2).1
        = (Len (Put (run [Call.put ["a"], Call.remove ["a"]]) ["a", "b", "a"]).2).1 ∧
      (∀ a ∈ ["a", "b", "a"],
        (Put (Put (run [Call.put ["a"], Call.remove ["a"]]) ["a", "b", "a"]).2 [a]).1 = false)) :=
  ⟨by decide, by decide,
    ((put_twice [Call.put ["a"], Call.remove ["a"]] ["a", "b", "a"]).2.2.2 (by decide)).1
      (by decide),
    (put_twice [Call.put ["a"], Call.remove ["a"]] ["a", "b", "a"]).2.1,
    (put_twice [Call.put ["a"], Call.remove ["a"]] ["a", "b", "a"]).2.2.1,
    ((put_twice [Call.put ["a"], Call.remove ["a"]] ["a", "b", "a"]).2.2.2 (by decide)).2⟩

/-- C10: for every list `vs`, `New` with one `Put(vs)`, `New` with one `Put(v)` for each
`v` of `vs` in order, and `NewWith(vs)` have the same members, the same `Len` and the
same answer of `Contains` to every query; `NewWith(vs)` is the first of the three as a
state, its counter at 1. -/
theorem constructions_agree (vs : List String) :
    (∀ x : String,
      (member (run [Call.put vs]) x ↔ member (run (vs.map fun v => Call.put [v])) x) ∧
      (member (NewWith vs) x ↔ member (run [Call.put vs]) x)) ∧
    ((Len (run [Call.put vs])).1 = (Len (run (vs.map fun v => Call.put [v]))).1 ∧
      (Len (NewWith vs)).1 = (Len (run [Call.put vs])).1) ∧
    (∀ qs : List String,
      (Contains (run [Call.put vs]) qs).1 = (Contains (run (vs.map fun v => Call.put [v])) qs).1 ∧
      (Contains (NewWith vs) qs).1 = (Contains (run [Call.put vs]) qs).1) ∧
    NewWith vs = run [Call.put vs] ∧
    (NewWith vs).nextEpoch = 1 := by
  have hstate : NewWith vs = run [Call.put vs] := rfl
  have hmem : ∀ x : String,
      x ∈ (run [Call.put vs]).storage ↔ x ∈ (run (vs.map fun v => Call.put [v])).storage := by
    intro x
    rw [← hstate, NewWith_mem, run, runFrom_puts_mem]
    simp [New]
  refine ⟨fun x => ⟨hmem x, by rw [hstate]⟩, ⟨keys_length_congr _ _ hmem, by rw [hstate]⟩,
    fun qs => ⟨?_, by rw [hstate]⟩, hstate, ?_⟩
  · rw [Bool.eq_iff_iff, Contains_fst, Contains_fst]
    exact forall₂_congr (fun v _ => hmem v)
  · simp only [NewWith, Put_nextEpoch, New]
    decide


/-! ## The counter -/

/-- C11: `Put(vs)` sets the counter to its old value plus 1 modulo `2 ^ 64`, whatever the
length of `vs`, the empty list included; a key inserted by the call is stored with the
old value of the counter; `Remove`, `Contains`, `Strings` and `Len` leave the counter as
it was, the `NewWith` inside `Remove` advancing the counter of the temporary set only;
`New` has the counter 0 and no key. -/
theorem counter_bookkeeping (s : mapStringSet) (vs : List String) :
    (Put s vs).2.nextEpoch = (s.nextEpoch + 1) % uint64Size ∧
    (Put s []).2.nextEpoch = (s.nextEpoch + 1) % uint64Size ∧
    (∀ k : String, ¬ member s k → member (Put s vs).2 k →
      (Put s vs).2.storage.lookup k = some s.nextEpoch) ∧
    (Remove s vs).2.nextEpoch = s.nextEpoch ∧
    (NewWith vs).nextEpoch = 1 ∧
    (Contains s vs).2.nextEpoch = s.nextEpoch ∧
    (Strings s).2.nextEpoch = s.nextEpoch ∧
    (Len s).2.nextEpoch = s.nextEpoch ∧
    New.nextEpoch = 0 ∧ New.storage.keys = [] := by
  refine ⟨Put_nextEpoch s vs, Put_nextEpoch s [], fun k hk hk2 => ?_, Remove_nextEpoch s vs, ?_,
    by rw [Contains_snd], rfl, rfl, rfl, rfl⟩
  · have hv : k ∈ vs := ((Put_mem s vs k).mp hk2).resolve_left hk
    rw [Put_lookup, AList.lookup_eq_none.mpr hk]
    simp [hv]
  · simp only [NewWith, Put_nextEpoch, New]
    decide

/-! ## The invariant of the epochs -/

theorem Put_epochsBelow (s : mapStringSet) (vs : List String) (hs : EpochsBelow s)
    (hn : s.nextEpoch + 1 < uint64Size) : EpochsBelow (Put s vs).2 := by
  intro k a hk
  rw [Put_nextEpoch, Nat.mod_eq_of_lt hn]
  rw [Put_lookup] at hk
  cases hl : s.storage.lookup k with
  | some a2 =>
    rw [hl] at hk
    have h1 : a2 = a := by simpa using hk
    have h2 := hs k a2 hl
    omega
  | none =>
    rw [hl] at hk
    by_cases hv : k ∈ vs
    · simp [hv] at hk; omega
    · simp [hv] at hk

theorem exec_epochsBelow (c : Call) (s : mapStringSet) (hs : EpochsBelow s)
    (hn : s.nextEpoch + putCalls [c] < uint64Size) : EpochsBelow (c.exec s) := by
  by_cases hc : putCalls [c] = 0
  · intro k a hk
    rw [exec_nextEpoch_of_not_put c s hc]
    exact hs k a (exec_lookup_of_not_put c s hc k a hk)
  · cases c with
    | put vs => exact Put_epochsBelow s vs hs hn
    | contains vs => exact absurd rfl hc
    | remove vs => exact absurd rfl hc
    | strings => exact absurd rfl hc
    | len => exact absurd rfl hc

/-- C13: in a state reached from `New` by calls of which fewer than `2 ^ 64` are calls of
`Put`, every stored epoch is below the counter (which is the number of calls of `Put`);
`New` has the invariant, and every call keeps it as long as the calls of `Put` stay
below `2 ^ 64`, that is, the counter does not wrap. -/
theorem stored_epochs_below_counter (calls : List Call) (h : putCalls calls < uint64Size) :
    (∀ (k : String) (a : Nat),
      (run calls).storage.lookup k = some a → a < (run calls).nextEpoch) ∧
    (run calls).nextEpoch = putCalls calls ∧
    EpochsBelow New ∧
    (∀ (s : mapStringSet) (c : Call), EpochsBelow s →
      s.nextEpoch + putCalls [c] < uint64Size → EpochsBelow (c.exec s)) ∧
    (∀ c : Call, putCalls (calls ++ [c]) < uint64Size → EpochsBelow (run (calls ++ [c]))) := by
  have hinv := run_invariant calls h
  refine ⟨hinv.2, hinv.1, fun k a hk => by simp [New] at hk,
    fun s c hs hn => exec_epochsBelow c s hs hn, fun c hc => ?_⟩
  rw [run_snoc]
  refine exec_epochsBelow c _ hinv.2 ?_
  rw [putCalls_append] at hc
  rw [hinv.1]
  exact hc

theorem stored_epochs_below_counter_witness :
    putCalls [Call.put ["a", "b"], Call.contains ["a"], Call.remove ["a"], Call.strings,
      Call.len, Call.put ["c", "a"]] < uint64Size ∧
    ((∀ (k : String) (a : Nat),
        (run [Call.put ["a", "b"], Call.contains ["a"], Call.remove ["a"], Call.strings,
          Call.len, Call.put ["c", "a"]]).storage.lookup k = some a →
        a < (run [Call.put ["a", "b"], Call.contains ["a"], Call.remove ["a"], Call.strings,
          Call.len, Call.put ["c", "a"]]).nextEpoch) ∧
      (run [Call.put ["a", "b"], Call.contains ["a"], Call.remove ["a"], Call.strings,
        Call.len, Call.put ["c", "a"]]).nextEpoch
        = putCalls [Call.put ["a", "b"], Call.contains ["a"], Call.remove ["a"], Call.strings,
          Call.len, Call.put ["c", "a"]] ∧
      EpochsBelow New ∧
      (∀ (s : mapStringSet) (c : Call), EpochsBelow s →
        s.nextEpoch + putCalls [c] < uint64Size → EpochsBelow (c.exec s)) ∧
      (∀ c : Call,
        putCalls ([Call.put ["a", "b"], Call.contains ["a"], Call.remove ["a"], Call.strings,
          Call.len, Call.put ["c", "a"]] ++ [c]) < uint64Size →
        EpochsBelow (run ([Call.put ["a", "b"], Call.contains ["a"], Call.remove ["a"],
          Call.strings, Call.len, Call.put ["c", "a"]] ++ [c])))) :=
  ⟨by decide, stored_epochs_below_counter _ (by decide)⟩

/-! ## The counter wraps -/

/-- C14: the counter is a `uint64` and wraps. After `Put(x)` and `2 ^ 64 - 1` calls `Put()`
the map is `x ↦ 0` and the counter is 0 again; there `Put(x)` returns true although `x` is
a member. In any state, `Put` is right when no stored epoch equals the counter, and
`Put(k)` is wrong for a key `k` whose stored epoch equals the counter. -/
theorem put_wrong_after_wrap (x : String) :
    run (Call.put [x] :: List.replicate (uint64Size - 1) (Call.put []))
      = { storage := AList.singleton x 0, nextEpoch := 0 } ∧
    member (run (Call.put [x] :: List.replicate (uint64Size - 1) (Call.put []))) x ∧
    (Put (run (Call.put [x] :: List.replicate (uint64Size - 1) (Call.put []))) [x]).1 = true ∧
    (∀ (s : mapStringSet) (vs : List String),
      (∀ (k : String) (a : Nat), s.storage.lookup k = some a → a ≠ s.nextEpoch) →
      ((Put s vs).1 = true ↔ ∀ v ∈ vs, ¬ member s v)) ∧
    (∀ (s : mapStringSet) (k : String), s.storage.lookup k = some s.nextEpoch →
      member s k ∧ (Put s [k]).1 = true) := by
  have hput : Call.exec (Call.put [x]) New
      = { storage := AList.singleton x 0, nextEpoch := 1 } := rfl
  have hstate : run (Call.put [x] :: List.replicate (uint64Size - 1) (Call.put []))
      = { storage := AList.singleton x 0, nextEpoch := 0 } := by
    rw [run_cons, hput, runFrom_replicate_put_nil _ _ (show 1 < uint64Size by decide)]
    have : (1 + (uint64Size - 1)) % uint64Size = 0 := by decide
    simp only [this]
  rw [hstate]
  have hlook : (AList.singleton x 0 : Storage).lookup x = some 0 := by
    rw [← AList.insert_empty, AList.lookup_insert]
  refine ⟨rfl, AList.lookup_isSome.mp (by rw [hlook]; rfl), ?_, fun s vs hs => ?_,
    fun s k hk => ⟨AList.lookup_isSome.mp (by rw [hk]; rfl), ?_⟩⟩
  · rw [Put_fst]
    intro v hv a ha
    rw [List.mem_singleton.mp hv, hlook] at ha
    simpa using ha.symm
  · rw [Put_fst]
    constructor
    · intro h v hv hmem
      obtain ⟨a, ha⟩ := Option.isSome_iff_exists.mp (AList.lookup_isSome.mpr hmem)
      exact hs v a ha (h v hv a ha)
    · intro h v hv a ha
      exact absurd (AList.lookup_isSome.mp (by simp [ha])) (h v hv)
  · rw [Put_fst]
    intro v hv a ha
    rw [List.mem_singleton.mp hv, hk] at ha
    simpa using ha.symm


/-! ## The epoch stored for a key -/

theorem lastInsertedAt_cons (s : mapStringSet) (c : Call) (rest : List Call) (k : String)
    (e : Nat) :
    LastInsertedAt s (c :: rest) k e ↔
      ((∃ vs, c = Call.put vs ∧ k ∈ vs) ∧ ¬ member s k ∧ e = s.nextEpoch ∧
          ∀ ws, Call.remove ws ∈ rest → k ∉ ws)
        ∨ LastInsertedAt (c.exec s) rest k e := by
  constructor
  · rintro ⟨pre, vs, post, h, hk, hm, he, hnr⟩
    cases pre with
    | nil =>
      simp only [List.nil_append, List.cons.injEq] at h
      obtain ⟨rfl, rfl⟩ := h
      exact Or.inl ⟨⟨vs, rfl, hk⟩, hm, he, hnr⟩
    | cons p pre =>
      simp only [List.cons_append, List.cons.injEq] at h
      obtain ⟨rfl, rfl⟩ := h
      exact Or.inr ⟨pre, vs, post, rfl, hk, hm, he, hnr⟩
  · rintro (⟨⟨vs, rfl, hk⟩, hm, he, hnr⟩ | ⟨pre, vs, post, rfl, hk, hm, he, hnr⟩)
    · exact ⟨[], vs, rest, rfl, hk, hm, he, hnr⟩
    · exact ⟨c :: pre, vs, post, rfl, hk, hm, he, hnr⟩

theorem runFrom_lookup_iff (calls : List Call) (s : mapStringSet) (k : String) (e : Nat) :
    (runFrom s calls).storage.lookup k = some e ↔
      (s.storage.lookup k = some e ∧ ∀ ws, Call.remove ws ∈ calls → k ∉ ws)
        ∨ LastInsertedAt s calls k e := by
  induction calls generalizing s with
  | nil =>
    have : ¬ LastInsertedAt s [] k e := by
      rintro ⟨pre, vs, post, h, -⟩
      cases pre <;> simp at h
    simp [runFrom, this]
  | cons c rest ih =>
    have hstep : runFrom s (c :: rest) = runFrom (c.exec s) rest := rfl
    rw [hstep, ih, lastInsertedAt_cons]
    cases c with
    | put vs =>
      have hl : (Put s vs).2.storage.lookup k = some e ↔
          s.storage.lookup k = some e ∨ (k ∈ vs ∧ ¬ member s k ∧ e = s.nextEpoch) := by
        rw [Put_lookup]
        by_cases hm : k ∈ s.storage
        · obtain ⟨a, ha⟩ := Option.isSome_iff_exists.mp (AList.lookup_isSome.mpr hm)
          simp [ha, member, hm]
        · have hn := AList.lookup_eq_none.mpr hm
          by_cases hv : k ∈ vs
          · simp [hn, hv, member, hm, eq_comm]
          · simp [hn, hv]
      simp only [Call.exec, hl, List.mem_cons, Call.put.injEq, exists_eq_left', false_or,
        reduceCtorEq]
      tauto
    | remove vs =>
      have hl : (Remove s vs).2.storage.lookup k = some e ↔
          s.storage.lookup k = some e ∧ k ∉ vs := by
        rw [Remove_lookup]
        by_cases hv : k ∈ vs <;> simp [hv]
      simp only [Call.exec, hl, List.mem_cons, Call.remove.injEq, reduceCtorEq,
        false_and, exists_false, false_or, forall_eq_or_imp]
      tauto
    | contains vs =>
      simp [Call.exec, Contains_snd]
    | strings => simp [Call.exec, Strings, Len]
    | len => simp [Call.exec, Len]

theorem runFrom_lookup_eq_firstInsertEpochFrom (calls : List Call) (s : mapStringSet)
    (k : String) (hs : k ∉ s.storage) (hnr : ∀ ws, Call.remove ws ∈ calls → k ∉ ws) :
    (runFrom s calls).storage.lookup k = firstInsertEpochFrom k s calls := by
  induction calls generalizing s with
  | nil => simpa [runFrom, firstInsertEpochFrom] using AList.lookup_eq_none.mpr hs
  | cons c rest ih =>
    have hstep : runFrom s (c :: rest) = runFrom (c.exec s) rest := rfl
    have hnr2 : ∀ ws, Call.remove ws ∈ rest → k ∉ ws :=
      fun ws hws => hnr ws (List.mem_cons_of_mem _ hws)
    rw [hstep]
    cases c with
    | put vs =>
      by_cases hv : k ∈ vs
      · have hf : firstInsertEpochFrom k s (Call.put vs :: rest) = some s.nextEpoch := by
          simp [firstInsertEpochFrom, hv, member, hs]
        rw [hf, runFrom_lookup_iff]
        refine Or.inl ⟨?_, hnr2⟩
        simp only [Call.exec]
        rw [Put_lookup, AList.lookup_eq_none.mpr hs]
        simp [hv]
      · have hf : firstInsertEpochFrom k s (Call.put vs :: rest)
            = firstInsertEpochFrom k (Put s vs).2 rest := by
          simp [firstInsertEpochFrom, hv]
        rw [hf]
        refine ih _ ?_ hnr2
        simp only [Call.exec]
        rw [Put_mem]
        tauto
    | remove vs =>
      have hf : firstInsertEpochFrom k s (Call.remove vs :: rest)
          = firstInsertEpochFrom k (Remove s vs).2 rest := rfl
      rw [hf]
      refine ih _ ?_ hnr2
      simp only [Call.exec]
      rw [Remove_mem]
      tauto
    | contains vs =>
      refine ih _ ?_ hnr2
      simpa [Call.exec, Contains_snd] using hs
    | strings => exact ih _ hs hnr2
    | len => exact ih _ hs hnr2

/-- C12, as the source has it: after `Put("k")`, `Remove("k")`, `Put("k")` the epoch stored
for "k" is 1, the epoch of the second `Put`, while the first call of `Put` that inserted
"k" had the epoch 0. -/
theorem reinsertion_epoch_counterexample :
    (run [Call.put ["k"], Call.remove ["k"], Call.put ["k"]]).storage.lookup "k" = some 1 ∧
    firstInsertEpoch [Call.put ["k"], Call.remove ["k"], Call.put ["k"]] "k" = some 0 ∧
    (run [Call.put ["k"], Call.remove ["k"], Call.put ["k"]]).storage.lookup "k"
      ≠ firstInsertEpoch [Call.put ["k"], Call.remove ["k"], Call.put ["k"]] "k" := by
  decide

/-- C12, amended: after a sequence of calls from `New`, the epoch stored for a key `k` is
the epoch of the call of `Put` that inserted `k` last (`k` was no member before that call
and no later `Remove` names it); a later `Put` does not change it while `k` stays a
member; when no `Remove` of the sequence names `k`, it is the epoch of the first call of
`Put` that inserted `k`. -/
theorem stored_epoch_is_of_last_insertion (calls : List Call) (k : String) (e : Nat) :
    ((run calls).storage.lookup k = some e ↔ LastInsertedAt New calls k e) ∧
    (∀ vs : List String, (run calls).storage.lookup k = some e →
      (Put (run calls) vs).2.storage.lookup k = some e) ∧
    ((∀ ws, Call.remove ws ∈ calls → k ∉ ws) →
      (run calls).storage.lookup k = firstInsertEpoch calls k) := by
  refine ⟨?_, fun vs h => ?_, fun hnr => ?_⟩
  · rw [run, runFrom_lookup_iff]
    simp [New]
  · rw [Put_lookup, h]
    rfl
  · exact runFrom_lookup_eq_firstInsertEpochFrom calls New k (AList.not_mem_empty k) hnr


/-! ## The order of removal, and the round trip -/

theorem removeLoop_snd_indep (ks : List String) (b c : Bool) (s : mapStringSet) :
    (removeLoop ks b s).2 = (removeLoop ks c s).2 := by
  induction ks generalizing b c s with
  | nil => rfl
  | cons v rest ih => simp only [removeLoop]; exact ih _ _ _

theorem removeLoop_snd_perm {ks ls : List String} (h : ks.Perm ls) (b c : Bool)
    (s : mapStringSet) : (removeLoop ks b s).2 = (removeLoop ls c s).2 := by
  induction h generalizing b c s with
  | nil => rfl
  | cons x _ ih => simp only [removeLoop]; exact ih _ _ _
  | swap x y l =>
    simp only [removeLoop, removeSingle_snd]
    rw [AList.erase_erase]
    exact removeLoop_snd_indep _ _ _ _
  | trans _ _ ih1 ih2 => exact (ih1 b c s).trans (ih2 c c s)

theorem NewWith_keys_perm (vs ws : List String) (h : ∀ x, x ∈ ws ↔ x ∈ vs) :
    (NewWith ws).storage.keys.Perm (NewWith vs).storage.keys := by
  rw [List.perm_ext_iff_of_nodup (AList.keys_nodup _) (AList.keys_nodup _)]
  intro k
  simp only [← AList.mem_keys, NewWith_mem, h k]

/-- C15: when `ws` is a permutation of `vs`, or `vs` without its repeated occurrences,
`Remove(vs)` and `Remove(ws)` return the same boolean and leave the same members, indeed
the same state; and the loop of `Remove` gives the result and the state of `Remove(vs)`
in whatever order it goes through the keys of the temporary set. -/
theorem remove_order_independent (s : mapStringSet) (vs ws : List String)
    (h : ws.Perm vs ∨ ws = vs.dedup) :
    (Remove s vs).1 = (Remove s ws).1 ∧
    (∀ x : String, member (Remove s vs).2 x ↔ member (Remove s ws).2 x) ∧
    (Remove s vs).2 = (Remove s ws).2 ∧
    (∀ ks : List String, ks.Perm (NewWith vs).storage.keys →
      (removeLoop ks true s).1 = (Remove s vs).1 ∧ (removeLoop ks true s).2 = (Remove s vs).2) := by
  have hmem : ∀ x, x ∈ ws ↔ x ∈ vs := by
    intro x
    rcases h with h | h
    · exact h.mem_iff
    · rw [h]; exact List.mem_dedup
  have hstate : (Remove s vs).2 = (Remove s ws).2 :=
    removeLoop_snd_perm (NewWith_keys_perm vs ws hmem).symm true true s
  refine ⟨?_, fun x => by rw [hstate], hstate, fun ks hks => ⟨?_, ?_⟩⟩
  · rw [Bool.eq_iff_iff, Remove_fst, Remove_fst]
    exact ⟨fun hv v hw => hv v ((hmem v).mp hw), fun hv v hw => hv v ((hmem v).mpr hw)⟩
  · have hnd : ks.Nodup := hks.nodup_iff.mpr (AList.keys_nodup _)
    rw [Bool.eq_iff_iff, removeLoop_fst ks hnd, Remove_fst]
    simp only [true_and]
    constructor
    · intro hv v hw
      exact hv v (hks.mem_iff.mpr (AList.mem_keys.mp ((NewWith_mem vs v).mpr hw)))
    · intro hv v hw
      exact hv v ((NewWith_mem vs v).mp (AList.mem_keys.mpr (hks.mem_iff.mp hw)))
  · exact removeLoop_snd_perm hks true true s

theorem remove_order_independent_witness :
    (["b", "a", "c", "a"].Perm ["a", "b", "a", "c"] ∨ ["b", "a", "c", "a"] = ["a", "b", "a", "c"].dedup) ∧
    ((Remove (NewWith ["a", "c", "d"]) ["a", "b", "a", "c"]).1
        = (Remove (NewWith ["a", "c", "d"]) ["b", "a", "c", "a"]).1 ∧
      (∀ x : String, member (Remove (NewWith ["a", "c", "d"]) ["a", "b", "a", "c"]).2 x ↔
        member (Remove (NewWith ["a", "c", "d"]) ["b", "a", "c", "a"]).2 x) ∧
      (Remove (NewWith ["a", "c", "d"]) ["a", "b", "a", "c"]).2
        = (Remove (NewWith ["a", "c", "d"]) ["b", "a", "c", "a"]).2 ∧
      (∀ ks : List String, ks.Perm (NewWith ["a", "b", "a", "c"]).storage.keys →
        (removeLoop ks true (NewWith ["a", "c", "d"])).1
            = (Remove (NewWith ["a", "c", "d"]) ["a", "b", "a", "c"]).1 ∧
          (removeLoop ks true (NewWith ["a", "c", "d"])).2
            = (Remove (NewWith ["a", "c", "d"]) ["a", "b", "a", "c"]).2)) :=
  ⟨by decide, remove_order_independent _ _ _ (by decide)⟩

/-- C16: when no string of `vs` is a member of `s`, `Put(vs)` followed by `Remove(vs)` makes
`Remove` return true and gives back the members, the stored epochs and `Len` that `s` had
before the `Put`; `NewWith(vs).Remove(vs)` returns true and leaves `Len()` at 0. -/
theorem put_remove_round_trip (s : mapStringSet) (vs : List String)
    (h : ∀ v ∈ vs, ¬ member s v) :
    (Remove (Put s vs).2 vs).1 = true ∧
    (∀ x : String, member (Remove (Put s vs).2 vs).2 x ↔ member s x) ∧
    (∀ k : String, (Remove (Put s vs).2 vs).2.storage.lookup k = s.storage.lookup k) ∧
    (Len (Remove (Put s vs).2 vs).2).1 = (Len s).1 ∧
    (Remove (NewWith vs) vs).1 = true ∧
    (Len (Remove (NewWith vs) vs).2).1 = 0 := by
  have hmem : ∀ x : String, x ∈ (Remove (Put s vs).2 vs).2.storage ↔ x ∈ s.storage := by
    intro x
    rw [Remove_mem, Put_mem]
    constructor
    · rintro ⟨h1 | h1, h2⟩
      · exact h1
      · exact absurd h1 h2
    · intro h1
      exact ⟨Or.inl h1, fun h2 => h x h2 h1⟩
  have hnew : ∀ x : String, x ∈ (Remove (NewWith vs) vs).2.storage ↔ x ∈ New.storage := by
    intro x
    rw [Remove_mem, NewWith_mem]
    simp [New]
  refine ⟨?_, hmem, fun k => ?_, keys_length_congr _ _ hmem, ?_, keys_length_congr _ _ hnew⟩
  · rw [Remove_fst]
    exact fun v hv => (Put_mem s vs v).mpr (Or.inr hv)
  · rw [Remove_lookup, Put_lookup]
    by_cases hk : k ∈ vs
    · simp only [hk, if_true]
      exact (AList.lookup_eq_none.mpr (h k hk)).symm
    · simp [hk]
  · rw [Remove_fst]
    exact fun v hv => (NewWith_mem vs v).mpr hv

theorem put_remove_round_trip_witness :
    (∀ v ∈ ["what", "shall", "what"], ¬ member (NewWith ["we", "do"]) v) ∧
    ((Remove (Put (NewWith ["we", "do"]) ["what", "shall", "what"]).2
        ["what", "shall", "what"]).1 = true ∧
      (∀ x : String,
        member (Remove (Put (NewWith ["we", "do"]) ["what", "shall", "what"]).2
          ["what", "shall", "what"]).2 x ↔ member (NewWith ["we", "do"]) x) ∧
      (∀ k : String,
        (Remove (Put (NewWith ["we", "do"]) ["what", "shall", "what"]).2
          ["what", "shall", "what"]).2.storage.lookup k
          = (NewWith ["we", "do"]).storage.lookup k) ∧
      (Len (Remove (Put (NewWith ["we", "do"]) ["what", "shall", "what"]).2
        ["what", "shall", "what"]).2).1 = (Len (NewWith ["we", "do"])).1 ∧
      (Remove (NewWith ["what", "shall", "what"]) ["what", "shall", "what"]).1 = true ∧
      (Len (Remove (NewWith ["what", "shall", "what"]) ["what", "shall", "what"]).2).1 = 0) :=
  ⟨by decide, put_remove_round_trip _ _ (by decide)⟩

end StringSet
